import Mathlib

/-!
Verification of the list-content transcoder of the List block
(`src/blocks/library/list/index.js`): the conversion functions between
flat break-delimited text and nested `<li>` markup, together with the
merge and split policies of the block.

Strings are modelled as Lean `String`s (sequences of characters); the
JavaScript `undefined` sentinel is modelled with `Option`.
-/

/-- Characters matched by the `\s` class of the break-tag pattern
`/<br\s*?\/?>/` (the ASCII whitespace characters together with the
common Unicode spaces; the inputs of interest contain only ASCII). -/
def isJsSpace (c : Char) : Bool :=
  c = ' ' || c = '\t' || c = '\n' || c = '\r' || c = '\x0b' || c = '\x0c' ||
  c = ' ' || c = '﻿'

/-- Drop the leading whitespace of a character list. -/
def skipWs : List Char → List Char
  | [] => []
  | c :: cs => if isJsSpace c then skipWs cs else c :: cs

/-- Match the break-tag pattern `/<br\s*?\/?>/` at the head of the input:
`<br`, then whitespace, then an optional `/`, then `>`.  Returns the rest
of the input after the match.  (The lazy quantifier of the pattern does not
affect which inputs match: the characters `/` and `>` are not whitespace,
so the whitespace run consumed between `<br` and the closer is unique.) -/
def matchBr : List Char → Option (List Char)
  | '<' :: 'b' :: 'r' :: rest =>
    match skipWs rest with
    | '/' :: '>' :: r => some r
    | '>' :: r => some r
    | _ => none
  | _ => none

/-- The accumulator-passing worker of `String.prototype.split` applied to
the break-tag pattern: scan left to right, cutting the input at every
match.  The first argument is fuel bounding the number of scan steps;
every step consumes at least one character of the input (a match consumes
at least the four characters of `<br>`), so fuel equal to the input length
realises the scan exactly. -/
def splitBrGo : Nat → List Char → List Char → List (List Char)
  | _, [], acc => [acc]
  | 0, l, acc => [acc ++ l]
  | fuel + 1, c :: cs, acc =>
    match matchBr (c :: cs) with
    | some rest => acc :: splitBrGo fuel rest []
    | none => splitBrGo fuel cs (acc ++ [c])

/-- `content.split( /<br\s*?\/?>/ )`. -/
def splitBr (l : List Char) : List (List Char) := splitBrGo l.length l []

/-- Whether some position of the input starts a match of the break-tag
pattern (i.e. whether the split produces more than a single segment). -/
def hasBrMatch : List Char → Bool
  | [] => false
  | c :: cs => (matchBr (c :: cs)).isSome || hasBrMatch cs

/-- `fromBrDelimitedContent` of `src/blocks/library/list/index.js`:
split the flat content on the break-tag pattern, wrap each non-empty
segment (JavaScript truthiness of a string is non-emptiness) in
`<li>...</li>`, and join the accumulated items with `Array.prototype.join`
called with no argument — which joins with the `","` separator. -/
def fromBrDelimitedContent (content : Option String) : Option String :=
  match content with
  | none => none
  | some s =>
    some ⟨List.intercalate [',']
      ((splitBr s.data).foldl
        (fun memo item =>
          if item = [] then memo
          else memo ++ ["<li>".data ++ item ++ "</li>".data]) [])⟩

example : fromBrDelimitedContent (some "a<br>b<br>c") =
    some "<li>a</li>,<li>b</li>,<li>c</li>" := by decide
example : fromBrDelimitedContent (some "") = some "" := by decide
example : fromBrDelimitedContent (some "abc") = some "<li>abc</li>" := by decide
example : fromBrDelimitedContent (some "<br><br>") = some "" := by decide
example : fromBrDelimitedContent (some "a<br />b") =
    some "<li>a</li>,<li>b</li>" := by decide

/-- A node of the DOM fragment obtained by assigning the `values` markup to
the `innerHTML` of a detached `<ul>` element: a text node, or an element
with its child nodes.  Attributes are not modelled: the transcoder never
reads them and the markup of interest carries none. -/
inductive DomNode where
  | text : String → DomNode
  | element : String → List DomNode → DomNode

/-- Character-wise upper-casing of a tag name.  (Equal to
`String.toUpper`, but expressed directly on the character list.) -/
def upperTag (s : String) : String := ⟨s.data.map Char.toUpper⟩

/-- The DOM `nodeName` of a node: the upper-cased tag of an element,
`"#text"` for a text node. -/
def DomNode.nodeName : DomNode → String
  | .text _ => "#text"
  | .element tag _ => upperTag tag

/-- The DOM `childNodes` of a node (a text node has none). -/
def DomNode.childNodes : DomNode → List DomNode
  | .text _ => []
  | .element _ children => children

mutual

/-- The DOM `outerHTML` serialization of an attribute-free node. -/
def outerHTML : DomNode → String
  | .text s => s
  | .element tag children => "<" ++ tag ++ ">" ++ innerHTML children ++ "</" ++ tag ++ ">"

/-- Serialization of a sequence of sibling nodes. -/
def innerHTML : List DomNode → String
  | [] => ""
  | n :: ns => outerHTML n ++ innerHTML ns

end

mutual

/-- `appendLiToContent` of `src/blocks/library/list/index.js`, with the
mutated `content` array passed explicitly: walk the node's children, then
push one `'<br>'`.  (Called on a text node — which has no children — it
pushes just the `'<br>'`.) -/
def appendLiToContent (content : List String) : DomNode → List String
  | .text _ => content ++ ["<br>"]
  | .element _ children => appendChildren content children ++ ["<br>"]

/-- The `li.childNodes.forEach( ... )` loop of `appendLiToContent`. -/
def appendChildren (content : List String) : List DomNode → List String
  | [] => content
  | e :: es => appendChildren (appendChild content e) es

/-- The body of the `forEach` callback of `appendLiToContent`: recurse into
a nested `UL`/`OL` (lists within lists), push the `nodeValue` of a text
node, push the `outerHTML` of any other element.  (The source checks the
`UL`/`OL` node names first; a text node's `nodeName` is `"#text"`, so
discriminating on the node kind first is equivalent.) -/
def appendChild (content : List String) : DomNode → List String
  | .text s => content ++ [s]
  | .element tag children =>
    if upperTag tag = "UL" || upperTag tag = "OL" then appendLis content children
    else content ++ [outerHTML (.element tag children)]

/-- The `element.childNodes.forEach( appendLiToContent )` loop, used both
for a nested list's children and for the top-level
`list.childNodes.forEach( appendLiToContent )`. -/
def appendLis (content : List String) : List DomNode → List String
  | [] => content
  | li :: lis => appendLis (appendLiToContent content li) lis

end

/-- The body of `toBrDelimitedContent` after the fragment has been parsed:
`const content = []; list.childNodes.forEach( appendLiToContent );
return content.join( '' );`. -/
def toBrDelimitedContentNodes (nodes : List DomNode) : String :=
  String.join (appendLis [] nodes)

/-- Modelled from the spec: recognize one of the opening tags the
transcoder distinguishes (`<li>`, `<ul>`, `<ol>`) at the head of the
input. -/
def parseTag : List Char → Option (String × List Char)
  | '<' :: 'l' :: 'i' :: '>' :: rest => some ("li", rest)
  | '<' :: 'u' :: 'l' :: '>' :: rest => some ("ul", rest)
  | '<' :: 'o' :: 'l' :: '>' :: rest => some ("ol", rest)
  | _ => none

/-- Modelled from the spec: recognize a closing tag (`</li>`, `</ul>`,
`</ol>`) at the head of the input. -/
def parseCloseTag : List Char → Option (String × List Char)
  | '<' :: '/' :: 'l' :: 'i' :: '>' :: rest => some ("li", rest)
  | '<' :: '/' :: 'u' :: 'l' :: '>' :: rest => some ("ul", rest)
  | '<' :: '/' :: 'o' :: 'l' :: '>' :: rest => some ("ol", rest)
  | _ => none

/-- Modelled from the spec: take the maximal text run at the head of the
input — characters up to the next recognized opening or closing tag.
Adjacent characters merge into a single text node, as in a DOM. -/
def takeText : List Char → List Char × List Char
  | [] => ([], [])
  | c :: cs =>
    if (parseTag (c :: cs)).isSome || (parseCloseTag (c :: cs)).isSome then
      ([], c :: cs)
    else
      let (t, r) := takeText cs
      (c :: t, r)

/-- Modelled from the spec: the HTML fragment parsing performed by
`list.innerHTML = values` on a detached `<ul>`, which is browser behavior,
not code of this repository.  Per §4.2 of the spec the parser exposes
child-node iteration, element/text discrimination and recursion, over
well-formed attribute-free markup built from `<li>`/`<ul>`/`<ol>` tags and
text.  Parse a sequence of sibling nodes, stopping at a closing tag or at
the end of the input; an element's children are parsed recursively and its
matching closing tag is consumed.  The fuel bounds the recursion depth;
every recursive call strictly consumes input, so fuel equal to the input
length plus one realises the parse exactly. -/
def parseNodes : Nat → List Char → List DomNode × List Char
  | _, [] => ([], [])
  | 0, l => ([], l)
  | fuel + 1, c :: cs =>
    if (parseCloseTag (c :: cs)).isSome then ([], c :: cs)
    else
      match parseTag (c :: cs) with
      | some (tag, rest) =>
        let (children, rest2) := parseNodes fuel rest
        let rest3 :=
          match parseCloseTag rest2 with
          | some (ctag, r) => if ctag = tag then r else rest2
          | none => rest2
        let (siblings, rest4) := parseNodes fuel rest3
        (DomNode.element tag children :: siblings, rest4)
      | none =>
        let (t, rest) := takeText (c :: cs)
        let (siblings, rest2) := parseNodes fuel rest
        (DomNode.text (String.mk t) :: siblings, rest2)

/-- Modelled from the spec: the child-node list of the detached `<ul>`
after `list.innerHTML = values`. -/
def parseListFragment (values : String) : List DomNode :=
  (parseNodes (values.length + 1) values.data).1

/-- `toBrDelimitedContent` of `src/blocks/library/list/index.js`: parse the
markup as the children of a `<ul>` wrapper, walk each child with
`appendLiToContent`, and join the collected pieces with no separator. -/
def toBrDelimitedContent (values : Option String) : Option String :=
  match values with
  | none => none
  | some v => some (toBrDelimitedContentNodes (parseListFragment v))

example : toBrDelimitedContent (some "") = some "" := by decide
example : toBrDelimitedContent (some "<li>a</li><li>b</li>") = some "a<br>b<br>" := by decide
example : toBrDelimitedContent (some "<li>a<ul><li>b</li></ul></li>") =
    some "ab<br><br>" := by decide
example : toBrDelimitedContent (fromBrDelimitedContent (some "a<br>b")) =
    some "a<br><br>b<br>" := by decide

/-- The attributes of a List block: `nodeName` (`"UL"` or `"OL"`) and the
`values` markup string. -/
structure ListBlockAttributes where
  nodeName : String
  values : String
deriving DecidableEq

/-- The attributes of the block being merged into a List block: an optional
`values` markup string (another list) and an optional `content` flat text
(a text-like block).  An absent field is JavaScript `undefined`. -/
structure MergeIncoming where
  values : Option String
  content : Option String
deriving DecidableEq

/-- The `merge` handler of the List block:
`valuesToMerge = attributesToMerge.values || ''`, then if
`attributesToMerge.content` is truthy (present and non-empty) append it
as-is, and concatenate onto `attributes.values`.  The spread keeps every
other attribute — in particular `nodeName` — unchanged. -/
def merge (attributes : ListBlockAttributes) (attributesToMerge : MergeIncoming) :
    ListBlockAttributes :=
  let valuesToMerge :=
    match attributesToMerge.values with
    | some v => if v = "" then "" else v
    | none => ""
  let valuesToMerge :=
    match attributesToMerge.content with
    | some c => if c = "" then valuesToMerge else valuesToMerge ++ c
    | none => valuesToMerge
  { attributes with values := attributes.values ++ valuesToMerge }

example : merge ⟨"UL", "<li>x</li>"⟩ ⟨none, some "y"⟩ = ⟨"UL", "<li>x</li>y"⟩ := by decide

/-- Modelled from the spec: a block produced during a split.
`createBlock( 'core/paragraph' )` — a generic empty-paragraph block with
default attributes — and `createBlock( 'core/list', { nodeName, values } )`
— a List block carrying the given attributes.  `createBlock` itself lives
in the host framework (`../../api`), outside this file's source. -/
inductive Block where
  | emptyParagraph : Block
  | listBlock (nodeName : String) (values : String) : Block
deriving DecidableEq

/-- The observable effect of the `onSplit` handler: the new `values` passed
to `setAttributes`, and the block list passed to `insertBlocksAfter`
(inserted immediately after the current block, in order). -/
structure SplitEffect where
  newValues : String
  insertedAfter : List Block
deriving DecidableEq

/-- The `onSplit` handler of the List block's `Editable`: given the
`before` and `after` markup fragments and the intermediate `blocks`
produced by the host, push a generic empty paragraph when there are no
intermediate blocks, push a new List block with the same `nodeName` and
`values = after` when `after` is non-empty, set the current block's
`values` to `before`, and insert the accumulated blocks after it. -/
def onSplit (nodeName : String) (before after : String) (blocks : List Block) :
    SplitEffect :=
  let blocks := if blocks.length = 0 then blocks ++ [Block.emptyParagraph] else blocks
  let blocks :=
    if after.length ≠ 0 then blocks ++ [Block.listBlock nodeName after] else blocks
  { newValues := before, insertedAfter := blocks }

example : onSplit "UL" "<li>a</li>" "<li>b</li>" [] =
    ⟨"<li>a</li>", [Block.emptyParagraph, Block.listBlock "UL" "<li>b</li>"]⟩ := by decide

/-! ### Helper lemmas -/

theorem join_append (xs ys : List String) :
    String.join (xs ++ ys) = String.join xs ++ String.join ys := by
  apply String.ext
  simp [String.data_join, String.data_append]

theorem join_cons (x : String) (xs : List String) :
    String.join (x :: xs) = x ++ String.join xs := by
  apply String.ext
  simp [String.data_join, String.data_append]

mutual

/-- The accumulated `content` only grows at the end: walking a node is the
walk from the empty accumulator, appended. -/
theorem appendLiToContent_eq (content : List String) (li : DomNode) :
    appendLiToContent content li = content ++ appendLiToContent [] li := by
  match li with
  | .text _ => simp [appendLiToContent]
  | .element _ children =>
    simp only [appendLiToContent]
    rw [appendChildren_eq content children]
    simp

theorem appendChildren_eq (content : List String) (es : List DomNode) :
    appendChildren content es = content ++ appendChildren [] es := by
  match es with
  | [] => simp [appendChildren]
  | e :: es =>
    simp only [appendChildren]
    rw [appendChildren_eq (appendChild content e) es,
        appendChildren_eq (appendChild [] e) es,
        appendChild_eq content e]
    simp

theorem appendChild_eq (content : List String) (e : DomNode) :
    appendChild content e = content ++ appendChild [] e := by
  match e with
  | .text s => simp [appendChild]
  | .element tag children =>
    by_cases h : (upperTag tag = "UL" || upperTag tag = "OL") = true
    · simp only [appendChild, if_pos h]
      exact appendLis_eq content children
    · simp [appendChild, h]

theorem appendLis_eq (content : List String) (ls : List DomNode) :
    appendLis content ls = content ++ appendLis [] ls := by
  match ls with
  | [] => simp [appendLis]
  | li :: lis =>
    simp only [appendLis]
    rw [appendLis_eq (appendLiToContent content li) lis,
        appendLis_eq (appendLiToContent [] li) lis,
        appendLiToContent_eq content li]
    simp

end

/-- When no position of the input matches the break-tag pattern, the split
scan returns the single segment it accumulated. -/
theorem splitBrGo_no_match :
    ∀ (cs : List Char) (fuel : Nat) (acc : List Char),
      cs.length ≤ fuel → hasBrMatch cs = false →
      splitBrGo fuel cs acc = [acc ++ cs] := by
  intro cs
  induction cs with
  | nil =>
    intro fuel acc _ _
    cases fuel <;> simp [splitBrGo]
  | cons c cs ih =>
    intro fuel acc hf hm
    match fuel with
    | fuel + 1 =>
      simp only [hasBrMatch, Bool.or_eq_false_iff] at hm
      have hnone : matchBr (c :: cs) = none := by
        cases hmb : matchBr (c :: cs) with
        | none => rfl
        | some r => rw [hmb] at hm; simp at hm
      simp only [splitBrGo, hnone]
      rw [ih fuel (acc ++ [c]) (by simpa using Nat.le_of_succ_le_succ hf) hm.2]
      simp

/-- Dropping every empty segment of an all-empty segment list accumulates
nothing. -/
theorem foldl_items_all_empty :
    ∀ (xs : List (List Char)) (memo : List (List Char)),
      (∀ x ∈ xs, x = []) →
      xs.foldl
        (fun memo item => if item = [] then memo
          else memo ++ ["<li>".data ++ item ++ "</li>".data]) memo = memo := by
  intro xs
  induction xs with
  | nil => intro memo _; rfl
  | cons x xs ih =>
    intro memo h
    have hx : x = [] := h x (by simp)
    simp only [List.foldl_cons, hx, if_pos]
    exact ih memo fun y hy => h y (by simp [hy])

/-! ### Claims -/

/-- C1: the claim asserts that `fromBrDelimitedContent` joins the wrapped
items with no separator, so that `"a<br>b<br>c"` maps to
`"<li>a</li><li>b</li><li>c</li>"`.  The source calls
`Array.prototype.join` with no argument, whose default separator is `","`:
the code in fact produces `"<li>a</li>,<li>b</li>,<li>c</li>"`.  This
theorem evaluates the code at the failing input and records that the
result differs from the claimed one. -/
theorem c1_join_default_comma_separator :
    fromBrDelimitedContent (some "a<br>b<br>c") =
      some "<li>a</li>,<li>b</li>,<li>c</li>" ∧
    fromBrDelimitedContent (some "a<br>b<br>c") ≠
      some "<li>a</li><li>b</li><li>c</li>" := by
  constructor
  · decide
  · decide

/-- C2: the claim asserts the round trip
`toBrDelimitedContent (fromBrDelimitedContent x)` reproduces `x`'s
non-empty segments each followed by one break marker.  Because of the
`","` join separator, the comma between the `<li>` items parses as a stray
text node of the wrapper list, which the walk turns into a bare extra
`<br>`: at `x = "a<br>b"` the code produces `"a<br><br>b<br>"` instead of
the claimed `"a<br>b<br>"`. -/
theorem c2_roundtrip_broken_by_comma :
    toBrDelimitedContent (fromBrDelimitedContent (some "a<br>b")) =
      some "a<br><br>b<br>" ∧
    toBrDelimitedContent (fromBrDelimitedContent (some "a<br>b")) ≠
      some "a<br>b<br>" := by
  constructor
  · decide
  · decide

/-- C3: splitting with fragments `before`/`after`, no intermediate blocks
and non-empty `after` sets the current block's `values` to `before` and
inserts, in order, a generic empty paragraph followed by a new List block
with the same `nodeName` and `values = after`; concretely for
`before = "<li>a</li>"`, `after = "<li>b</li>"`. -/
theorem c3_onSplit_empty_paragraph_then_list :
    (∀ (nodeName before after : String), after ≠ "" →
      onSplit nodeName before after [] =
        ⟨before, [Block.emptyParagraph, Block.listBlock nodeName after]⟩) ∧
    onSplit "UL" "<li>a</li>" "<li>b</li>" [] =
      ⟨"<li>a</li>", [Block.emptyParagraph, Block.listBlock "UL" "<li>b</li>"]⟩ := by
  constructor
  · intro nodeName before after h
    have hlen : after.length ≠ 0 := by
      intro h0
      exact h (String.ext (List.length_eq_zero.mp h0))
    simp [onSplit, hlen]
  · decide

/-- Witness for C3 at the concrete split of the claim. -/
theorem c3_onSplit_empty_paragraph_then_list_witness :
    (("<li>b</li>" : String) ≠ "") ∧
    onSplit "UL" "<li>a</li>" "<li>b</li>" [] =
      ⟨"<li>a</li>", [Block.emptyParagraph, Block.listBlock "UL" "<li>b</li>"]⟩ :=
  ⟨by decide, c3_onSplit_empty_paragraph_then_list.1 "UL" "<li>a</li>" "<li>b</li>" (by decide)⟩

/-- C4: `merge` keeps the base `nodeName` and concatenates, as plain
strings, the base `values`, the incoming `values` (or `""`), and the
incoming `content` when present, with no conversion; concretely merging
`values = "<li>x</li>"` with a plain block of `content = "y"` yields
`"<li>x</li>y"`. -/
theorem c4_merge_plain_concatenation :
    (∀ (a : ListBlockAttributes) (m : MergeIncoming),
      merge a m =
        ⟨a.nodeName, a.values ++ m.values.getD "" ++ m.content.getD ""⟩) ∧
    merge ⟨"UL", "<li>x</li>"⟩ ⟨none, some "y"⟩ = ⟨"UL", "<li>x</li>y"⟩ := by
  constructor
  · intro a m
    rcases a with ⟨an, av⟩
    rcases m with ⟨mv, mc⟩
    have hv : ∀ v : String, (if v = "" then "" else v) = v := by
      intro v; split <;> simp_all
    cases mv <;> cases mc <;>
      simp only [merge, Option.getD_none, Option.getD_some, hv] <;>
      (try split) <;>
      simp_all [String.append_empty, String.empty_append, String.append_assoc]
  · decide

/-- C5 counterexample: the claim's concrete instance fails on the code —
flattening `"<li>a<ul><li>b</li></ul></li>"` does not yield
`"a<br>b<br>"` (the code yields `"ab<br><br>"`: the walk pushes the
containing item's `'<br>'` only after recursing into the nested list). -/
theorem c5_nested_list_counterexample :
    toBrDelimitedContent (some "<li>a<ul><li>b</li></ul></li>") ≠
      some "a<br>b<br>" := by
  decide

/-- C5 (amended): the walk does recurse into a nested `UL`/`OL` child,
emitting the nested items into the same flat output sequence and
discarding nesting depth — but the containing item's break marker is
pushed only after its children have been walked, so the nested content
precedes it: concretely `"<li>a<ul><li>b</li></ul></li>"` flattens to
`"ab<br><br>"`. -/
theorem c5_nested_list_flattening :
    (∀ (content : List String) (tag : String) (children : List DomNode),
      upperTag tag = "UL" ∨ upperTag tag = "OL" →
      appendChild content (DomNode.element tag children) = appendLis content children) ∧
    toBrDelimitedContent (some "<li>a<ul><li>b</li></ul></li>") =
      some "ab<br><br>" := by
  constructor
  · intro content tag children h
    have hb : (upperTag tag = "UL" || upperTag tag = "OL") = true := by
      rcases h with h | h <;> simp [h]
    simp [appendChild, hb]
  · decide

/-- Witness for C5's amended recursion property at a concrete nested
`<ul>`. -/
theorem c5_nested_list_flattening_witness :
    (upperTag "ul" = "UL" ∨ upperTag "ul" = "OL") ∧
    appendChild [] (DomNode.element "ul" [DomNode.element "li" [DomNode.text "b"]]) =
      appendLis [] [DomNode.element "li" [DomNode.text "b"]] :=
  ⟨by decide,
   c5_nested_list_flattening.1 [] "ul" [DomNode.element "li" [DomNode.text "b"]]
     (by decide)⟩

/-- C6: over a sequence of top-level `LI` items, the flattened output is
each item's content (the walk of its children) followed by exactly one
break marker — the last item included; concretely
`"<li>a</li><li>b</li>"` flattens to `"a<br>b<br>"`. -/
theorem c6_break_after_each_item :
    (∀ items : List DomNode, (∀ li ∈ items, li.nodeName = "LI") →
      toBrDelimitedContentNodes items =
        String.join (items.map fun li =>
          String.join (appendChildren [] li.childNodes) ++ "<br>")) ∧
    toBrDelimitedContent (some "<li>a</li><li>b</li>") = some "a<br>b<br>" := by
  constructor
  · intro items
    induction items with
    | nil => intro _; rfl
    | cons li items ih =>
      intro h
      have hrest : ∀ x ∈ items, x.nodeName = "LI" := fun x hx => h x (by simp [hx])
      have hli : li.nodeName = "LI" := h li (by simp)
      match li, hli with
      | DomNode.text s, hli => simp [DomNode.nodeName] at hli
      | DomNode.element tag children, _ =>
        simp only [toBrDelimitedContentNodes] at ih ⊢
        rw [show appendLis [] (DomNode.element tag children :: items) =
              appendLis (appendLiToContent [] (DomNode.element tag children)) items
            from rfl,
          appendLis_eq (appendLiToContent [] (DomNode.element tag children)) items,
          join_append, ih hrest, List.map_cons, join_cons]
        simp only [appendLiToContent, DomNode.childNodes]
        rw [join_append]
        have hbr : String.join ["<br>"] = "<br>" := by decide
        rw [hbr]
  · decide

/-- Witness for C6 at the two-item list `[<li>a</li>, <li>b</li>]`. -/
theorem c6_break_after_each_item_witness :
    (∀ li ∈ [DomNode.element "li" [DomNode.text "a"],
             DomNode.element "li" [DomNode.text "b"]], li.nodeName = "LI") ∧
    toBrDelimitedContentNodes
        [DomNode.element "li" [DomNode.text "a"],
         DomNode.element "li" [DomNode.text "b"]] =
      String.join
        ([DomNode.element "li" [DomNode.text "a"],
          DomNode.element "li" [DomNode.text "b"]].map fun li =>
          String.join (appendChildren [] li.childNodes) ++ "<br>") :=
  ⟨by decide,
   c6_break_after_each_item.1
     [DomNode.element "li" [DomNode.text "a"], DomNode.element "li" [DomNode.text "b"]]
     (by decide)⟩

/-- C7: both converters propagate the `undefined` sentinel — applied to
`undefined` they return `undefined` rather than raising (both are total
functions of their input). -/
theorem c7_undefined_propagates :
    fromBrDelimitedContent none = none ∧ toBrDelimitedContent none = none :=
  ⟨rfl, rfl⟩

/-- C8: the empty string maps to the empty result, and more generally every
input all of whose break-separated segments are empty produces no `<li>`
item at all. -/
theorem c8_all_empty_segments_dropped :
    fromBrDelimitedContent (some "") = some "" ∧
    ∀ s : String, (∀ seg ∈ splitBr s.data, seg = []) →
      fromBrDelimitedContent (some s) = some "" := by
  constructor
  · decide
  · intro s h
    simp only [fromBrDelimitedContent]
    rw [foldl_items_all_empty (splitBr s.data) [] h]
    rfl

/-- Witness for C8 at `"<br><br>"`, whose segments are all empty. -/
theorem c8_all_empty_segments_dropped_witness :
    (∀ seg ∈ splitBr "<br><br>".data, seg = []) ∧
    fromBrDelimitedContent (some "<br><br>") = some "" :=
  ⟨by decide, c8_all_empty_segments_dropped.2 "<br><br>" (by decide)⟩

/-- C10: a non-empty input with no break-tag match anywhere is a single
segment: the result is exactly `"<li>" ++ input ++ "</li>"`. -/
theorem c10_single_segment_single_item :
    ∀ s : String, s ≠ "" → hasBrMatch s.data = false →
      fromBrDelimitedContent (some s) = some ("<li>" ++ s ++ "</li>") := by
  intro s hne hbr
  have hdata : s.data ≠ [] := fun hd => hne (String.ext hd)
  have hsplit : splitBr s.data = [s.data] := by
    have := splitBrGo_no_match s.data s.data.length [] le_rfl hbr
    simpa [splitBr] using this
  simp only [fromBrDelimitedContent, hsplit, List.foldl_cons, List.foldl_nil,
    if_neg hdata]
  congr 1
  apply String.ext
  simp [List.intercalate, String.data_append]

/-- Witness for C10 at the single-segment input `"abc"`. -/
theorem c10_single_segment_single_item_witness :
    (("abc" : String) ≠ "" ∧ hasBrMatch "abc".data = false) ∧
    fromBrDelimitedContent (some "abc") = some ("<li>" ++ "abc" ++ "</li>") :=
  ⟨⟨by decide, by decide⟩, c10_single_segment_single_item "abc" (by decide) (by decide)⟩

/-- C9: converting the empty markup string yields the empty flat string —
defined output (not the `undefined` sentinel) with no break marker
emitted. -/
theorem c9_empty_markup_empty_flat_text :
    toBrDelimitedContent (some "") = some "" := by
  decide
